import Mathlib

/-!
Shallow embedding of src/objax/nn/rnn_redesign.py.

Scalars range over an arbitrary commutative ring R, modelling the exact
arithmetic of real-valued tensors; vectors are lists of scalars and two-axis
tensors are lists of rows.  Tensor operations that can raise a shape error in
jax are embedded as Option-valued functions, with none modelling the error.
External collaborators of the file (objax.nn.Linear, objax.functional.scan,
objax.Vectorize), which are repository code not under src/, are modelled from
the contracts stated in the specification and marked as such.
-/

namespace Objax

variable {R : Type} [CommRing R]

/-- Dot product of two scalar vectors. -/
def dot (a b : List R) : R := (List.zipWith (fun x y => x * y) a b).sum

/-- Elementwise sum of two vectors; callers have already checked lengths. -/
def vadd (a b : List R) : List R := List.zipWith (fun x y => x + y) a b

/-- Checked elementwise sum: none models the jax shape error raised when two
vectors of different lengths are added (a size-one broadcast never occurs at
the shapes used in this file). -/
def vaddChk (a b : List R) : Option (List R) :=
  if a.length = b.length then some (vadd a b) else none

/-- Elementwise application of an activation function to a vector. -/
def actVec (a : R → R) (v : List R) : List R := v.map a

/-- Elementwise application of an activation function to a two-axis tensor. -/
def mAct (a : R → R) (m : List (List R)) : List (List R) := m.map (actVec a)

/-- Collects a list of optional values, failing when any entry failed. -/
def optList {α : Type} : List (Option α) → Option (List α)
  | [] => some []
  | none :: _ => none
  | some a :: rest => (optList rest).map (fun l => a :: l)

/-- Checked elementwise sum of two-axis tensors, failing on any shape
mismatch, as jax addition of two (B, n) tensors does. -/
def maddChk (a b : List (List R)) : Option (List (List R)) :=
  if a.length = b.length then optList (List.zipWith vaddChk a b) else none

/-- Modelled from the spec: the affine transform primitive objax.nn.Linear,
repository code that is not under src/.  Given an input dimension and a bias
flag it owns externally initialized storage and maps a vector v of length
inDim to v W (+ bias).  The field wT stores the outDim weight columns. -/
structure Linear (R : Type) where
  inDim : ℕ
  wT : List (List R)
  bias : Option (List R)

/-- Modelled from the spec: builds a Linear of declared shape (din, dout)
from externally supplied weight and bias initializers, with storage of
exactly the declared shape, as objax.nn.Linear(din, dout, use_bias) does. -/
def Linear.init (din dout : ℕ) (w : ℕ → ℕ → R) (b : ℕ → R) (useBias : Bool) :
    Linear R :=
  { inDim := din
    wT := (List.range dout).map (fun j => (List.range din).map (fun i => w i j))
    bias := if useBias then some ((List.range dout).map b) else none }

/-- Unchecked application of the affine transform to one vector. -/
def Linear.raw (l : Linear R) (v : List R) : List R :=
  match l.bias with
  | none => l.wT.map (fun c => dot v c)
  | some b => vadd (l.wT.map (fun c => dot v c)) b

/-- Checked application to one vector: none models the jax shape error raised
when the vector length differs from the declared input dimension. -/
def Linear.apply (l : Linear R) (v : List R) : Option (List R) :=
  if v.length = l.inDim then some (l.raw v) else none

/-- Checked application of a Linear to a two-axis tensor, transforming each
row, as x @ W (+ broadcast bias) does in jax; every row must have the
declared input dimension. -/
def Linear.applyMat (l : Linear R) (x : List (List R)) : Option (List (List R)) :=
  if ∀ r ∈ x, r.length = l.inDim then some (x.map l.raw) else none

/-- Pure mathematical vector by matrix product, the matrix given by its
columns; used to state specification-level formulas. -/
def matVecCols (wT : List (List R)) (v : List R) : List R :=
  wT.map (fun c => dot v c)

/-- Modelled from the spec: the sequential-fold primitive
objax.functional.scan, repository code that is not under src/.  Folds a step
function (state, elem) to (new state, out) left-to-right over the leading
axis, returning the final state and the outputs in traversal order; a failed
step propagates its failure. -/
def scan {σ α β : Type} (f : σ → α → Option (σ × β)) : σ → List α → Option (σ × List β)
  | s, [] => some (s, [])
  | s, a :: rest => do
    let (s1, b) ← f s a
    let (fin, outs) ← scan f s1 rest
    pure (fin, b :: outs)

/-- The simple RNN cell MyRnnCell: two chained affine transforms and an
activation, applied to the concatenation of input and state. -/
structure MyRnnCell (R : Type) where
  op1 : Linear R
  op2 : Linear R
  act : R → R

/-- MyRnnCell constructor: op is Sequential of Linear(nin + nstate, nstate),
Linear(nstate, nstate) and the activation. -/
def MyRnnCell.init (nin nstate : ℕ) (w1 : ℕ → ℕ → R) (b1 : ℕ → R)
    (w2 : ℕ → ℕ → R) (b2 : ℕ → R) (a : R → R) : MyRnnCell R :=
  { op1 := Linear.init (nin + nstate) nstate w1 b1 true
    op2 := Linear.init nstate nstate w2 b2 true
    act := a }

/-- Forward call of MyRnnCell: passes the concatenation of x and state
through both affine transforms and the activation. -/
def MyRnnCell.call (c : MyRnnCell R) (state x : List R) : Option (List R) := do
  let h1 ← c.op1.apply (x ++ state)
  let h2 ← c.op2.apply h1
  pure (actVec c.act h2)

/-- The factorized RNN cell: an input-side Linear without bias, a state-side
Linear with bias, an activation, the declared state dimension, and the
transient factor cache written on every forward call. -/
structure FactorizedRnnCell (R : Type) where
  win : Linear R
  wn : Linear R
  act : R → R
  nstate : ℕ
  factor : List (List R)

/-- FactorizedRnnCell constructor: win is Linear(nin, nstate) without bias,
wn is Linear(nstate, nstate) with bias.  The factor cache field starts empty
since the source only ever writes it inside the forward call. -/
def FactorizedRnnCell.init (nin nstate : ℕ) (wi wh : ℕ → ℕ → R) (bh : ℕ → R)
    (a : R → R) : FactorizedRnnCell R :=
  { win := Linear.init nin nstate wi (fun _ => 0) false
    wn := Linear.init nstate nstate wh bh true
    act := a
    nstate := nstate
    factor := [] }

/-- The sequential loop of the factorized forward call: one step per factor
row, each step activating wn(state) + factor_i, and each per-step output row
being reshape(state, (1, nstate)), which fails unless the state has exactly
nstate entries. -/
def factorLoop (wn : Linear R) (a : R → R) (nstate : ℕ) :
    List R → List (List R) → Option (List R × List (List R))
  | state, [] => some (state, [])
  | state, f :: rest => do
    let p ← wn.apply state
    let s ← vaddChk p f
    let s1 := actVec a s
    if s1.length = nstate then do
      let (fin, outs) ← factorLoop wn a nstate s1 rest
      pure (fin, s1 :: outs)
    else none

/-- Forward call of FactorizedRnnCell on an entire input sequence: projects
every input row through win in one batched call, stores the result in the
factor cache, runs the sequential loop, concatenates the per-step outputs
(which fails on an empty list, as jax concatenate does), and returns the
final state reshaped to (1, nstate) together with the updated module. -/
def FactorizedRnnCell.call (c : FactorizedRnnCell R) (state : List R)
    (x : List (List R)) : Option (List (List R) × FactorizedRnnCell R) := do
  let factor ← c.win.applyMat x
  let c1 := { c with factor := factor }
  let (fin, outs) ← factorLoop c.wn c.act c.nstate state factor
  if outs.isEmpty then none
  else if fin.length = c.nstate then some ([fin], c1) else none

/-- The canonical two-weight cell DDLRnnCell: wxh is Linear(nin, nstate)
without bias, whh is Linear(nstate, nstate) with bias. -/
structure DDLRnnCell (R : Type) where
  wxh : Linear R
  whh : Linear R
  act : R → R

/-- DDLRnnCell constructor, fixing the bias flags exactly as the source
does. -/
def DDLRnnCell.init (nin nstate : ℕ) (wx wh : ℕ → ℕ → R) (bh : ℕ → R)
    (a : R → R) : DDLRnnCell R :=
  { wxh := Linear.init nin nstate wx (fun _ => 0) false
    whh := Linear.init nstate nstate wh bh true
    act := a }

/-- Forward call of DDLRnnCell on one input element: the activation of
whh(state) + wxh(x). -/
def DDLRnnCell.call (c : DDLRnnCell R) (state x : List R) : Option (List R) := do
  let p ← c.whh.apply state
  let q ← c.wxh.apply x
  let s ← vaddChk p q
  pure (actVec c.act s)

/-- Forward call of DDLRnnCell on batched (B, nstate) state and (B, nin)
input tensors, exactly as jax evaluates the same expression on two-axis
arguments: each Linear maps rows and the sum and activation act
elementwise. -/
def DDLRnnCell.callMat (c : DDLRnnCell R) (state x : List (List R)) :
    Option (List (List R)) := do
  let p ← c.whh.applyMat state
  let q ← c.wxh.applyMat x
  let s ← maddChk p q
  pure (mAct c.act s)

/-- One step of the per-sequence driver VectorizedRNN: the cell update
followed by the output layer, returning next state and next output. -/
def rnnSingle (cell : List R → List R → Option (List R))
    (ol : List R → Option (List R)) (s xi : List R) :
    Option (List R × List R) := do
  let ns ← cell s xi
  let no ← ol ns
  pure (ns, no)

/-- Forward call of VectorizedRNN: scans the single step over the leading
(time) axis of x from the initial state, returning the outputs and the final
state. -/
def VectorizedRNN.call (cell : List R → List R → Option (List R))
    (ol : List R → Option (List R)) (x : List (List R)) (s : List R) :
    Option (List (List R) × List R) := do
  let (fin, outs) ← scan (rnnSingle cell ol) s x
  pure (outs, fin)

/-- One step of the batched driver RNN, on two-axis state and input slices. -/
def rnnSingleM (cellM : List (List R) → List (List R) → Option (List (List R)))
    (olM : List (List R) → Option (List (List R))) (s xi : List (List R)) :
    Option (List (List R) × List (List R)) := do
  let ns ← cellM s xi
  let no ← olM ns
  pure (ns, no)

/-- Transposition of the leading two axes of a three-axis tensor of
time-axis length T, sending index (b, t) to (t, b), as
jax transpose((1, 0, 2)) does on a rectangular (B, T, nin) tensor. -/
def transposeBT : ℕ → List (List (List R)) → List (List (List R))
  | 0, _ => []
  | T + 1, x => x.map (fun r => r.headD []) :: transposeBT T (x.map List.tail)

/-- Forward call of the RNN driver: takes a batch-major (B, T, nin) input,
transposes it to time-major inside the driver, scans the single step over
time, and returns the time-major outputs with the final state. -/
def RNN.call (cellM : List (List R) → List (List R) → Option (List (List R)))
    (olM : List (List R) → Option (List (List R)))
    (x : List (List (List R))) (s : List (List R)) :
    Option (List (List (List R)) × List (List R)) := do
  let (fin, outs) ← scan (rnnSingleM cellM olM) s (transposeBT (x.headD []).length x)
  pure (outs, fin)

/-- Follows the words of the specification for the Sequential Driver: the
input sequence is presented with the time axis first and folded directly, the
driver performing no reordering of its own.  Stated only to be compared with
RNN.call, which is translated from the source. -/
def RNN.callSpec (cellM : List (List R) → List (List R) → Option (List (List R)))
    (olM : List (List R) → Option (List (List R)))
    (x : List (List (List R))) (s : List (List R)) :
    Option (List (List (List R)) × List (List R)) := do
  let (fin, outs) ← scan (rnnSingleM cellM olM) s x
  pure (outs, fin)

/-- Forward call of the FactorizedRNN driver: one whole-sequence cell call
produces the final state, the output layer is applied to that single result,
and the pair (output, last row of the cell result) is returned together with
the updated cell module. -/
def FactorizedRNN.call (c : FactorizedRnnCell R)
    (olM : List (List R) → Option (List (List R)))
    (x : List (List R)) (s : List R) :
    Option ((List (List R) × List R) × FactorizedRnnCell R) := do
  let (out, c1) ← c.call s x
  let output ← olM out
  match out.getLast? with
  | none => none
  | some last => pure ((output, last), c1)

/-- Modelled from the spec: objax.Vectorize with batch_axis (0, 0),
repository code that is not under src/.  Applies the wrapped function
independently to each batch slice of the two arguments and restacks the two
result components along the batch axis; the two batch sizes must agree. -/
def vectorize2 (f : List (List R) → List R → Option (List (List R) × List R))
    (x : List (List (List R))) (s : List (List R)) :
    Option (List (List (List R)) × List (List R)) :=
  if x.length = s.length then
    (optList (List.zipWith f x s)).map
      (fun res => (res.map Prod.fst, res.map Prod.snd))
  else none

/-- Step-by-step application of the canonical cell update T times in order,
threading the state. -/
def iterCell (c : DDLRnnCell R) : List R → List (List R) → Option (List R)
  | state, [] => some state
  | state, xi :: rest => do
    let s ← c.call state xi
    iterCell c s rest

/-! Helper lemmas about the embedded primitives. -/

theorem Linear.init_inDim (din dout : ℕ) (w : ℕ → ℕ → R) (b : ℕ → R) (ub : Bool) :
    (Linear.init din dout w b ub : Linear R).inDim = din := rfl

theorem Linear.init_wT_length (din dout : ℕ) (w : ℕ → ℕ → R) (b : ℕ → R) (ub : Bool) :
    (Linear.init din dout w b ub : Linear R).wT.length = dout := by
  simp [Linear.init]

theorem vadd_length (a b : List R) : (vadd a b).length = min a.length b.length := by
  simp [vadd]

theorem actVec_length (a : R → R) (v : List R) : (actVec a v).length = v.length := by
  simp [actVec]

theorem matVecCols_length (wT : List (List R)) (v : List R) :
    (matVecCols wT v).length = wT.length := by
  simp [matVecCols]

theorem Linear.init_raw_length (din dout : ℕ) (w : ℕ → ℕ → R) (b : ℕ → R)
    (ub : Bool) (v : List R) :
    ((Linear.init din dout w b ub : Linear R).raw v).length = dout := by
  cases ub <;> simp [Linear.init, Linear.raw, vadd]

theorem Linear.init_raw_false (din dout : ℕ) (w : ℕ → ℕ → R) (b : ℕ → R) (v : List R) :
    (Linear.init din dout w b false : Linear R).raw v
      = matVecCols (Linear.init din dout w b false : Linear R).wT v := rfl

theorem Linear.init_raw_true (din dout : ℕ) (w : ℕ → ℕ → R) (b : ℕ → R) (v : List R) :
    (Linear.init din dout w b true : Linear R).raw v
      = vadd (matVecCols (Linear.init din dout w b true : Linear R).wT v)
          ((List.range dout).map b) := rfl

theorem Linear.apply_pos (l : Linear R) (v : List R) (h : v.length = l.inDim) :
    l.apply v = some (l.raw v) := by
  simp [Linear.apply, h]

theorem Linear.apply_neg (l : Linear R) (v : List R) (h : v.length ≠ l.inDim) :
    l.apply v = none := by
  simp [Linear.apply, h]

theorem vaddChk_pos (a b : List R) (h : a.length = b.length) :
    vaddChk a b = some (vadd a b) := by
  simp [vaddChk, h]

theorem optList_eq_some {α : Type} :
    ∀ (L : List (Option α)) (res : List α), optList L = some res ↔ L = res.map some := by
  intro L
  induction L with
  | nil =>
      intro res
      constructor
      · intro h
        cases res with
        | nil => rfl
        | cons r rs => simp [optList] at h
      · intro h
        cases res with
        | nil => rfl
        | cons r rs => simp at h
  | cons o rest ih =>
      intro res
      cases o with
      | none =>
          constructor
          · intro h; simp [optList] at h
          · intro h
            cases res with
            | nil => simp at h
            | cons r rs => simp at h
      | some a =>
          constructor
          · intro h
            simp only [optList, Option.map_eq_some'] at h
            obtain ⟨res', hres', hcons⟩ := h
            subst hcons
            simp [List.map_cons, (ih res').mp hres']
          · intro h
            cases res with
            | nil => simp at h
            | cons r rs =>
                simp only [List.map_cons, List.cons.injEq] at h
                obtain ⟨ha, hrest⟩ := h
                have h2 := (ih rs).mpr hrest
                simp only [Option.some_inj] at ha
                simp [optList, h2, ha]

theorem optList_some_length {α : Type} :
    ∀ (L : List (Option α)) (res : List α), optList L = some res → res.length = L.length := by
  intro L res h
  rw [optList_eq_some] at h
  subst h
  simp

theorem getD_map_lt {α β : Type} (f : α → β) :
    ∀ (l : List α) (n : ℕ) (d : β) (d0 : α), n < l.length →
      (l.map f).getD n d = f (l.getD n d0) := by
  intro l
  induction l with
  | nil => intro n d d0 h; simp at h
  | cons a l ih =>
      intro n d d0 h
      cases n with
      | zero => rfl
      | succ m =>
          simp only [List.map_cons, List.getD_cons_succ]
          exact ih m d d0 (by simpa using h)

theorem optList_zip_index {α β γ : Type} (f : α → β → Option γ) :
    ∀ (x : List α) (s : List β) (res : List γ) (b : ℕ) (dx : α) (ds : β) (dr : γ),
    x.length = s.length → optList (List.zipWith f x s) = some res →
    b < x.length →
    f (x.getD b dx) (s.getD b ds) = some (res.getD b dr) := by
  intro x
  induction x with
  | nil => intro s res b dx ds dr hlen h hb; simp at hb
  | cons xi x ih =>
      intro s res b dx ds dr hlen h hb
      cases s with
      | nil => simp at hlen
      | cons si s =>
          simp only [List.zipWith_cons_cons] at h
          cases hf : f xi si with
          | none => rw [hf] at h; simp [optList] at h
          | some r =>
              rw [hf] at h
              simp only [optList, Option.map_eq_some'] at h
              obtain ⟨res', hres', hcons⟩ := h
              subst hcons
              cases b with
              | zero => simpa using hf
              | succ m =>
                  simp only [List.getD_cons_succ]
                  exact ih s res' m dx ds dr (by simpa using hlen) hres'
                    (by simpa using hb)

theorem Linear.apply_some_inv (l : Linear R) (v u : List R)
    (h : l.apply v = some u) : u = l.raw v ∧ v.length = l.inDim := by
  by_cases hc : v.length = l.inDim
  · rw [Linear.apply, if_pos hc] at h
    exact ⟨(Option.some_inj.mp h).symm, hc⟩
  · rw [Linear.apply, if_neg hc] at h
    exact absurd h (by simp)

theorem Linear.applyMat_some_inv (l : Linear R) (M V : List (List R))
    (h : l.applyMat M = some V) :
    V = M.map l.raw ∧ ∀ r ∈ M, r.length = l.inDim := by
  by_cases hc : ∀ r ∈ M, r.length = l.inDim
  · rw [Linear.applyMat, if_pos hc] at h
    exact ⟨(Option.some_inj.mp h).symm, hc⟩
  · rw [Linear.applyMat, if_neg hc] at h
    exact absurd h (by simp)

theorem vaddChk_some_inv (a b w : List R) (h : vaddChk a b = some w) :
    w = vadd a b ∧ a.length = b.length := by
  by_cases hc : a.length = b.length
  · rw [vaddChk, if_pos hc] at h
    exact ⟨(Option.some_inj.mp h).symm, hc⟩
  · rw [vaddChk, if_neg hc] at h
    exact absurd h (by simp)

theorem maddChk_some_inv (A B W : List (List R)) (h : maddChk A B = some W) :
    A.length = B.length ∧ optList (List.zipWith vaddChk A B) = some W := by
  by_cases hc : A.length = B.length
  · rw [maddChk, if_pos hc] at h
    exact ⟨hc, h⟩
  · rw [maddChk, if_neg hc] at h
    exact absurd h (by simp)

theorem Linear.applyMat_cons_some (l : Linear R) (r u : List R)
    (M V : List (List R)) (h1 : l.apply r = some u) (h2 : l.applyMat M = some V) :
    l.applyMat (r :: M) = some (u :: V) := by
  obtain ⟨hu, hr⟩ := Linear.apply_some_inv l r u h1
  obtain ⟨hV, hM⟩ := Linear.applyMat_some_inv l M V h2
  rw [Linear.applyMat, if_pos]
  · rw [List.map_cons, ← hu, ← hV]
  · intro q hq
    rcases List.mem_cons.mp hq with hq | hq
    · subst hq; exact hr
    · exact hM q hq

theorem maddChk_cons_some (a b w : List R) (A B W : List (List R))
    (h1 : vaddChk a b = some w) (h2 : maddChk A B = some W) :
    maddChk (a :: A) (b :: B) = some (w :: W) := by
  obtain ⟨hlen, hopt⟩ := maddChk_some_inv A B W h2
  rw [maddChk, if_pos (by simpa using hlen)]
  simp only [List.zipWith_cons_cons, optList, h1, hopt]
  rfl

theorem optList_cons_some_inv {α : Type} (o : Option α) (L : List (Option α))
    (res : List α) (h : optList (o :: L) = some res) :
    ∃ a res', o = some a ∧ optList L = some res' ∧ res = a :: res' := by
  cases o with
  | none => simp [optList] at h
  | some a =>
      simp only [optList, Option.map_eq_some'] at h
      obtain ⟨res', h1, h2⟩ := h
      exact ⟨a, res', rfl, h1, h2.symm⟩

theorem scan_cons_some_inv {σ α β : Type} (f : σ → α → Option (σ × β)) (s : σ)
    (a : α) (rest : List α) (r : σ × List β)
    (h : scan f s (a :: rest) = some r) :
    ∃ p, f s a = some p ∧ ∃ q, scan f p.1 rest = some q ∧ r = (q.1, p.2 :: q.2) := by
  simp only [scan, Option.bind_eq_bind, Option.bind_eq_some] at h
  obtain ⟨⟨s1, b⟩, hp, h⟩ := h
  obtain ⟨⟨fin, outs⟩, hq, h⟩ := h
  refine ⟨(s1, b), hp, (fin, outs), hq, ?_⟩
  simpa [pure, Prod.ext_iff] using h.symm

theorem rnnSingle_some_inv (cellf : List R → List R → Option (List R))
    (olf : List R → Option (List R)) (s xi : List R) (p : List R × List R)
    (h : rnnSingle cellf olf s xi = some p) :
    ∃ ns no, cellf s xi = some ns ∧ olf ns = some no ∧ p = (ns, no) := by
  simp only [rnnSingle, Option.bind_eq_bind, Option.bind_eq_some] at h
  obtain ⟨ns, hns, h⟩ := h
  obtain ⟨no, hno, h⟩ := h
  refine ⟨ns, no, hns, hno, ?_⟩
  simpa [pure, Prod.ext_iff] using h.symm

theorem ddl_call_some_inv (c : DDLRnnCell R) (s x ns : List R)
    (h : c.call s x = some ns) :
    ∃ u v w, c.whh.apply s = some u ∧ c.wxh.apply x = some v ∧
      vaddChk u v = some w ∧ ns = actVec c.act w := by
  simp only [DDLRnnCell.call, Option.bind_eq_bind, Option.bind_eq_some] at h
  obtain ⟨u, hu, h⟩ := h
  obtain ⟨v, hv, h⟩ := h
  obtain ⟨w, hw, h⟩ := h
  exact ⟨u, v, w, hu, hv, hw, (Option.some_inj.mp h).symm⟩

theorem ddl_callMat_some_inv (c : DDLRnnCell R) (S X NS : List (List R))
    (h : c.callMat S X = some NS) :
    ∃ U V W, c.whh.applyMat S = some U ∧ c.wxh.applyMat X = some V ∧
      maddChk U V = some W ∧ NS = mAct c.act W := by
  simp only [DDLRnnCell.callMat, Option.bind_eq_bind, Option.bind_eq_some] at h
  obtain ⟨U, hU, h⟩ := h
  obtain ⟨V, hV, h⟩ := h
  obtain ⟨W, hW, h⟩ := h
  exact ⟨U, V, W, hU, hV, hW, (Option.some_inj.mp h).symm⟩

theorem zipWith_left_map {α β γ : Type} (h : α → γ) :
    ∀ (a : List α) (b : List β), a.length = b.length →
      List.zipWith (fun x _ => h x) a b = a.map h := by
  intro a
  induction a with
  | nil => intro b _; simp
  | cons x a ih =>
      intro b hb
      cases b with
      | nil => simp at hb
      | cons y b =>
          simp only [List.zipWith_cons_cons, List.map_cons]
          rw [ih b (by simpa using hb)]

theorem zipWith_right_map {α β γ : Type} (h : β → γ) :
    ∀ (a : List α) (b : List β), a.length = b.length →
      List.zipWith (fun _ y => h y) a b = b.map h := by
  intro a
  induction a with
  | nil =>
      intro b hb
      cases b with
      | nil => simp
      | cons y b => simp at hb
  | cons x a ih =>
      intro b hb
      cases b with
      | nil => simp at hb
      | cons y b =>
          simp only [List.zipWith_cons_cons, List.map_cons]
          rw [ih b (by simpa using hb)]

theorem rnnSingleM_some_inv
    (cellM : List (List R) → List (List R) → Option (List (List R)))
    (olM : List (List R) → Option (List (List R))) (S X : List (List R))
    (P : List (List R) × List (List R))
    (h : rnnSingleM cellM olM S X = some P) :
    ∃ NS NO, cellM S X = some NS ∧ olM NS = some NO ∧ P = (NS, NO) := by
  simp only [rnnSingleM, Option.bind_eq_bind, Option.bind_eq_some] at h
  obtain ⟨NS, hNS, h⟩ := h
  obtain ⟨NO, hNO, h⟩ := h
  refine ⟨NS, NO, hNS, hNO, ?_⟩
  simpa [pure, Prod.ext_iff] using h.symm

theorem ddl_step_batch (c : DDLRnnCell R) (ol : Linear R) :
    ∀ (S X : List (List R)) (firsts : List (List R × List R)),
    S.length = X.length →
    optList (List.zipWith (rnnSingle c.call ol.apply) S X) = some firsts →
    rnnSingleM c.callMat ol.applyMat S X
      = some (firsts.map Prod.fst, firsts.map Prod.snd) := by
  intro S
  induction S with
  | nil =>
      intro X firsts hlen h
      cases X with
      | cons xb X => simp at hlen
      | nil =>
          have hf : firsts = [] := by
            simpa [optList] using h.symm
          subst hf
          rfl
  | cons sb S ih =>
      intro X firsts hlen h
      cases X with
      | nil => simp at hlen
      | cons xb X =>
          simp only [List.zipWith_cons_cons] at h
          obtain ⟨p, firsts', hp, hrest, hfirsts⟩ :=
            optList_cons_some_inv _ _ _ h
          subst hfirsts
          obtain ⟨ns, no, hns, hno, hpair⟩ :=
            rnnSingle_some_inv c.call ol.apply sb xb p hp
          subst hpair
          have hM := ih X firsts' (by simpa using hlen) hrest
          obtain ⟨NS, NO, hcm, hom, hP⟩ :=
            rnnSingleM_some_inv c.callMat ol.applyMat S X _ hM
          have hNS : NS = firsts'.map Prod.fst := by
            have := congrArg Prod.fst hP
            simpa using this.symm
          have hNO : NO = firsts'.map Prod.snd := by
            have := congrArg Prod.snd hP
            simpa using this.symm
          subst hNS
          subst hNO
          obtain ⟨u, v, w, hu, hv, hw, hnsw⟩ := ddl_call_some_inv c sb xb ns hns
          obtain ⟨U, V, W, hU, hV, hW, hNSW⟩ := ddl_callMat_some_inv c S X _ hcm
          have hcm2 : c.callMat (sb :: S) (xb :: X) = some (ns :: firsts'.map Prod.fst) := by
            simp only [DDLRnnCell.callMat, Option.bind_eq_bind]
            rw [Linear.applyMat_cons_some c.whh sb u S U hu hU]
            simp only [Option.some_bind]
            rw [Linear.applyMat_cons_some c.wxh xb v X V hv hV]
            simp only [Option.some_bind]
            rw [maddChk_cons_some u v w U V W hw hW]
            simp only [Option.some_bind]
            rw [hnsw, hNSW]
            rfl
          have hol2 : ol.applyMat (ns :: firsts'.map Prod.fst)
              = some (no :: firsts'.map Prod.snd) := by
            have hmm : ol.applyMat (firsts'.map Prod.fst) = some (firsts'.map Prod.snd) := hom
            exact Linear.applyMat_cons_some ol ns no _ _ hno hmm
          simp only [rnnSingleM, Option.bind_eq_bind]
          rw [hcm2]
          simp only [Option.some_bind]
          rw [hol2]
          rfl

theorem map_zipWith_post {α β γ δ : Type} (g : γ → δ) (f : α → β → γ) :
    ∀ (a : List α) (b : List β),
      (List.zipWith f a b).map g = List.zipWith (fun x y => g (f x y)) a b := by
  intro a
  induction a with
  | nil => intro b; simp
  | cons x a ih =>
      intro b
      cases b with
      | nil => simp
      | cons y b => simp [ih b]

theorem scan_split (g : List R → List R → Option (List R × List R)) :
    ∀ (s : List (List R)) (x : List (List (List R)))
      (res : List (List R × List (List R))),
    s.length = x.length → (∀ m ∈ x, m ≠ []) →
    optList (List.zipWith (fun sb xb => scan g sb xb) s x) = some res →
    ∃ firsts rests,
      optList (List.zipWith g s (x.map (fun m => m.headD []))) = some firsts ∧
      optList (List.zipWith (fun sb xb => scan g sb xb) (firsts.map Prod.fst)
        (x.map List.tail)) = some rests ∧
      res = List.zipWith (fun p q => (q.1, p.2 :: q.2)) firsts rests ∧
      firsts.length = s.length ∧ rests.length = s.length := by
  intro s
  induction s with
  | nil =>
      intro x res hlen _ h
      cases x with
      | cons xb x => simp at hlen
      | nil =>
          have hres : res = [] := by simpa [optList] using h.symm
          subst hres
          exact ⟨[], [], rfl, rfl, rfl, rfl, rfl⟩
  | cons sb s ih =>
      intro x res hlen hne h
      cases x with
      | nil => simp at hlen
      | cons xb x =>
          cases xb with
          | nil => exact absurd rfl (hne [] (List.mem_cons_self _ _))
          | cons hb tb =>
              simp only [List.zipWith_cons_cons] at h
              obtain ⟨r1, res', hr1, hrest, hres⟩ := optList_cons_some_inv _ _ _ h
              subst hres
              obtain ⟨p, hp, q, hq, hr⟩ :=
                scan_cons_some_inv g sb hb tb r1 hr1
              obtain ⟨firsts', rests', hf', hr', heq', hflen', hrlen'⟩ :=
                ih x res' (by simpa using hlen)
                  (fun m hm => hne m (List.mem_cons_of_mem _ hm)) hrest
              refine ⟨p :: firsts', q :: rests', ?_, ?_, ?_, ?_, ?_⟩
              · simp only [List.map_cons, List.headD_cons, List.zipWith_cons_cons,
                  optList, hp, hf']
                rfl
              · simp only [List.map_cons, List.tail_cons, List.zipWith_cons_cons,
                  optList, hq, hr']
                rfl
              · simp only [List.zipWith_cons_cons, ← heq', hr]
              · simpa using hflen'
              · simpa using hrlen'

theorem zip_scan_nil (g : List R → List R → Option (List R × List R)) :
    ∀ (s : List (List R)) (x : List (List (List R))),
    s.length = x.length → (∀ m ∈ x, m = []) →
    List.zipWith (fun sb xb => scan g sb xb) s x
      = s.map (fun sb => some (sb, ([] : List (List R)))) := by
  intro s
  induction s with
  | nil => intro x _ _; simp
  | cons sb s ih =>
      intro x hlen hx
      cases x with
      | nil => simp at hlen
      | cons xb x =>
          have hxb : xb = [] := hx xb (List.mem_cons_self _ _)
          subst hxb
          simp only [List.zipWith_cons_cons, List.map_cons]
          rw [ih x (by simpa using hlen) (fun m hm => hx m (List.mem_cons_of_mem _ hm))]
          rfl

theorem optList_map_some {α : Type} (l : List α) : optList (l.map some) = some l :=
  (optList_eq_some _ _).mpr rfl

theorem scan_batch (c : DDLRnnCell R) (ol : Linear R) :
    ∀ (T : ℕ) (x : List (List (List R))) (s : List (List R))
      (res : List (List R × List (List R))),
    (∀ m ∈ x, m.length = T) → s.length = x.length →
    optList (List.zipWith (fun sb xb => scan (rnnSingle c.call ol.apply) sb xb) s x)
      = some res →
    scan (rnnSingleM c.callMat ol.applyMat) s (transposeBT T x)
      = some (res.map Prod.fst, transposeBT T (res.map Prod.snd)) := by
  intro T
  induction T with
  | zero =>
      intro x s res hx hlen h
      have hx0 : ∀ m ∈ x, m = [] := fun m hm => List.length_eq_zero.mp (hx m hm)
      rw [zip_scan_nil (rnnSingle c.call ol.apply) s x hlen hx0] at h
      have hmm : s.map (fun sb => some (sb, ([] : List (List R))))
          = (s.map (fun sb => (sb, ([] : List (List R))))).map some := by
        simp [List.map_map]
      rw [hmm, optList_map_some] at h
      have hres : res = s.map (fun sb => (sb, ([] : List (List R)))) :=
        (Option.some_inj.mp h).symm
      subst hres
      simp only [transposeBT, scan]
      have h1 : (s.map (fun sb => (sb, ([] : List (List R))))).map Prod.fst = s := by
        rw [List.map_map]
        exact List.map_id'' (fun sb => rfl) s
      rw [h1]
  | succ T ih =>
      intro x s res hx hlen h
      have hne : ∀ m ∈ x, m ≠ [] := by
        intro m hm hm2
        subst hm2
        simpa using hx [] hm
      obtain ⟨firsts, rests, hfirsts, hrests, hres, hflen, hrlen⟩ :=
        scan_split (rnnSingle c.call ol.apply) s x res hlen hne h
      have hstep := ddl_step_batch c ol s (x.map (fun m => m.headD [])) firsts
        (by simpa using hlen) hfirsts
      have hih := ih (x.map List.tail) (firsts.map Prod.fst) rests
        (by
          intro m hm
          rw [List.mem_map] at hm
          obtain ⟨xb, hxb, hm2⟩ := hm
          subst hm2
          rw [List.length_tail, hx xb hxb]
          omega)
        (by simp [hflen, hlen]) hrests
      have hfr : firsts.length = rests.length := hflen.trans hrlen.symm
      show scan (rnnSingleM c.callMat ol.applyMat) s
          (x.map (fun r => r.headD []) :: transposeBT T (x.map List.tail))
        = some (res.map Prod.fst, transposeBT (T + 1) (res.map Prod.snd))
      simp only [scan, Option.bind_eq_bind]
      rw [hstep]
      simp only [Option.some_bind]
      rw [hih]
      simp only [Option.some_bind]
      have e1 : res.map Prod.fst = rests.map Prod.fst := by
        rw [hres, map_zipWith_post]
        exact zipWith_right_map Prod.fst firsts rests hfr
      have e2 : (res.map Prod.snd).map (fun r => r.headD []) = firsts.map Prod.snd := by
        rw [hres, map_zipWith_post, map_zipWith_post]
        exact zipWith_left_map Prod.snd firsts rests hfr
      have e3 : (res.map Prod.snd).map List.tail = rests.map Prod.snd := by
        rw [hres, map_zipWith_post, map_zipWith_post]
        exact zipWith_right_map Prod.snd firsts rests hfr
      show some (rests.map Prod.fst,
          firsts.map Prod.snd :: transposeBT T (rests.map Prod.snd))
        = some (res.map Prod.fst,
            (res.map Prod.snd).map (fun r => r.headD [])
              :: transposeBT T ((res.map Prod.snd).map List.tail))
      rw [e1, e2, e3]

theorem vectorizedRNN_call_some_inv (cellf : List R → List R → Option (List R))
    (olf : List R → Option (List R)) (xb : List (List R)) (sb : List R)
    (r : List (List R) × List R)
    (h : VectorizedRNN.call cellf olf xb sb = some r) :
    ∃ q, scan (rnnSingle cellf olf) sb xb = some q ∧ r = (q.2, q.1) := by
  simp only [VectorizedRNN.call, Option.bind_eq_bind, Option.bind_eq_some] at h
  obtain ⟨⟨fin, outs⟩, hq, h⟩ := h
  refine ⟨(fin, outs), hq, ?_⟩
  simpa [pure, Prod.ext_iff] using h.symm

theorem vect_calls_to_scan (cellf : List R → List R → Option (List R))
    (olf : List R → Option (List R)) :
    ∀ (x : List (List (List R))) (s : List (List R))
      (res : List (List (List R) × List R)),
    optList (List.zipWith (VectorizedRNN.call cellf olf) x s) = some res →
    optList (List.zipWith (fun sb xb => scan (rnnSingle cellf olf) sb xb) s x)
      = some (res.map (fun p => (p.2, p.1))) := by
  intro x
  induction x with
  | nil =>
      intro s res h
      have hres : res = [] := by simpa [optList] using h.symm
      subst hres
      simp [optList]
  | cons xb x ih =>
      intro s res h
      cases s with
      | nil =>
          have hres : res = [] := by simpa [optList] using h.symm
          subst hres
          simp [optList]
      | cons sb s =>
          simp only [List.zipWith_cons_cons] at h
          obtain ⟨r, res', hr, hrest, hres⟩ := optList_cons_some_inv _ _ _ h
          subst hres
          obtain ⟨q, hq, hrq⟩ :=
            vectorizedRNN_call_some_inv cellf olf xb sb r hr
          have hswap : (r.2, r.1) = q := by
            rw [hrq]
          simp only [List.zipWith_cons_cons, List.map_cons, optList, hq,
            ih s res' hrest, hswap]
          rfl

theorem ddl_call_pos (nin ns : ℕ) (wi wh : ℕ → ℕ → R) (bh : ℕ → R) (a : R → R)
    (state xi : List R) (hs : state.length = ns) (hx : xi.length = nin) :
    (DDLRnnCell.init nin ns wi wh bh a).call state xi
      = some (actVec a (vadd ((Linear.init ns ns wh bh true : Linear R).raw state)
          ((Linear.init nin ns wi (fun _ => 0) false : Linear R).raw xi))) := by
  have h1 : (DDLRnnCell.init nin ns wi wh bh a).whh.apply state
      = some ((Linear.init ns ns wh bh true : Linear R).raw state) :=
    Linear.apply_pos _ _ (by simpa [DDLRnnCell.init] using hs)
  have h2 : (DDLRnnCell.init nin ns wi wh bh a).wxh.apply xi
      = some ((Linear.init nin ns wi (fun _ => 0) false : Linear R).raw xi) :=
    Linear.apply_pos _ _ (by simpa [DDLRnnCell.init] using hx)
  have hlen : ((Linear.init ns ns wh bh true : Linear R).raw state).length
      = ((Linear.init nin ns wi (fun _ => 0) false : Linear R).raw xi).length := by
    rw [Linear.init_raw_length, Linear.init_raw_length]
  simp only [DDLRnnCell.call, DDLRnnCell.init] at h1 h2 ⊢
  rw [h1, h2]
  simp only [Option.bind_eq_bind, Option.some_bind, vaddChk_pos _ _ hlen]
  rfl

theorem ddl_step_length (nin ns : ℕ) (wi wh : ℕ → ℕ → R) (bh : ℕ → R) (a : R → R)
    (state xi : List R) :
    (actVec a (vadd ((Linear.init ns ns wh bh true : Linear R).raw state)
      ((Linear.init nin ns wi (fun _ => 0) false : Linear R).raw xi))).length = ns := by
  rw [actVec_length, vadd_length, Linear.init_raw_length, Linear.init_raw_length,
    Nat.min_self]

theorem factorLoop_iter (nin ns : ℕ) (wi wh : ℕ → ℕ → R) (bh : ℕ → R) (a : R → R) :
    ∀ (xs : List (List R)) (state : List R), state.length = ns →
    (∀ r ∈ xs, r.length = nin) →
    ∃ fin outs,
      factorLoop (Linear.init ns ns wh bh true) a ns state
          (xs.map (Linear.init nin ns wi (fun _ => 0) false : Linear R).raw)
        = some (fin, outs) ∧
      iterCell (DDLRnnCell.init nin ns wi wh bh a) state xs = some fin ∧
      outs.length = xs.length ∧ fin.length = ns := by
  intro xs
  induction xs with
  | nil =>
      intro state hs _
      exact ⟨state, [], rfl, rfl, rfl, hs⟩
  | cons xi rest ih =>
      intro state hs hr
      have hxi : xi.length = nin := hr xi (List.mem_cons_self xi rest)
      have hwn : (Linear.init ns ns wh bh true : Linear R).apply state
          = some ((Linear.init ns ns wh bh true : Linear R).raw state) :=
        Linear.apply_pos _ _ (by simpa [Linear.init_inDim] using hs)
      have hadd : vaddChk ((Linear.init ns ns wh bh true : Linear R).raw state)
          ((Linear.init nin ns wi (fun _ => 0) false : Linear R).raw xi)
          = some (vadd ((Linear.init ns ns wh bh true : Linear R).raw state)
              ((Linear.init nin ns wi (fun _ => 0) false : Linear R).raw xi)) :=
        vaddChk_pos _ _ (by rw [Linear.init_raw_length, Linear.init_raw_length])
      set s1 := actVec a (vadd ((Linear.init ns ns wh bh true : Linear R).raw state)
        ((Linear.init nin ns wi (fun _ => 0) false : Linear R).raw xi)) with hs1
      have hs1len : s1.length = ns := ddl_step_length nin ns wi wh bh a state xi
      obtain ⟨fin, outs, hloop, hiter, hlen, hfin⟩ :=
        ih s1 hs1len (fun r hrr => hr r (List.mem_cons_of_mem xi hrr))
      refine ⟨fin, s1 :: outs, ?_, ?_, by simpa using hlen, hfin⟩
      · simp only [List.map_cons, factorLoop, Option.bind_eq_bind]
        rw [hwn]
        simp only [Option.some_bind]
        rw [hadd]
        simp only [Option.some_bind, ← hs1]
        rw [if_pos hs1len, hloop]
        rfl
      · simp only [iterCell, Option.bind_eq_bind]
        rw [ddl_call_pos nin ns wi wh bh a state xi hs hxi, ← hs1]
        simpa using hiter

theorem factorized_equiv_aux (nin ns : ℕ) (wi wh : ℕ → ℕ → R) (bh : ℕ → R)
    (a : R → R) (state : List R) (xs : List (List R)) (hne : xs ≠ [])
    (hs : state.length = ns) (hr : ∀ r ∈ xs, r.length = nin) :
    ∃ fin, iterCell (DDLRnnCell.init nin ns wi wh bh a) state xs = some fin ∧
      fin.length = ns ∧
      (FactorizedRnnCell.init nin ns wi wh bh a).call state xs
        = some ([fin], { FactorizedRnnCell.init nin ns wi wh bh a with
            factor := xs.map (Linear.init nin ns wi (fun _ => 0) false : Linear R).raw }) := by
  obtain ⟨fin, outs, hloop, hiter, hlen, hfin⟩ :=
    factorLoop_iter nin ns wi wh bh a xs state hs hr
  refine ⟨fin, hiter, hfin, ?_⟩
  have hmat : (FactorizedRnnCell.init nin ns wi wh bh a : FactorizedRnnCell R).win.applyMat xs
      = some (xs.map (Linear.init nin ns wi (fun _ => 0) false : Linear R).raw) := by
    simp only [FactorizedRnnCell.init, Linear.applyMat]
    rw [if_pos]
    intro r hrr
    simpa [Linear.init_inDim] using hr r hrr
  have houts : outs.isEmpty = false := by
    cases outs with
    | nil =>
        exfalso
        apply hne
        cases xs with
        | nil => rfl
        | cons y ys => simp at hlen
    | cons o os => rfl
  simp only [FactorizedRnnCell.call, Option.bind_eq_bind]
  rw [hmat]
  simp only [Option.some_bind]
  have hloop2 : factorLoop
      (FactorizedRnnCell.init nin ns wi wh bh a : FactorizedRnnCell R).wn
      (FactorizedRnnCell.init nin ns wi wh bh a : FactorizedRnnCell R).act
      (FactorizedRnnCell.init nin ns wi wh bh a : FactorizedRnnCell R).nstate state
      (xs.map (Linear.init nin ns wi (fun _ => 0) false : Linear R).raw)
      = some (fin, outs) := hloop
  rw [hloop2]
  simp only [Option.some_bind, houts, Bool.false_eq_true, if_false]
  rw [if_pos (show fin.length
    = (FactorizedRnnCell.init nin ns wi wh bh a : FactorizedRnnCell R).nstate from hfin)]

/-! Claim theorems. -/

/-- C3: for every state vector of dimension nstate and input vector of
dimension nin, the canonical two-weight cell returns
activation(W_hh state + b + W_xh input): the biased affine image of the
state plus the unbiased affine image of the input, elementwise, passed
through the activation. -/
theorem C3_canonical_cell_update (nin ns : ℕ) (wx wh : ℕ → ℕ → R) (bh : ℕ → R)
    (a : R → R) (state x : List R) (hs : state.length = ns) (hx : x.length = nin) :
    (DDLRnnCell.init nin ns wx wh bh a).call state x
      = some (actVec a (vadd
          (vadd (matVecCols (DDLRnnCell.init nin ns wx wh bh a).whh.wT state)
            ((List.range ns).map bh))
          (matVecCols (DDLRnnCell.init nin ns wx wh bh a).wxh.wT x))) := by
  have h1 : (DDLRnnCell.init nin ns wx wh bh a).whh.apply state
      = some ((Linear.init ns ns wh bh true : Linear R).raw state) :=
    Linear.apply_pos _ _ (by simpa [DDLRnnCell.init] using hs)
  have h2 : (DDLRnnCell.init nin ns wx wh bh a).wxh.apply x
      = some ((Linear.init nin ns wx (fun _ => 0) false : Linear R).raw x) :=
    Linear.apply_pos _ _ (by simpa [DDLRnnCell.init] using hx)
  have hlen : ((Linear.init ns ns wh bh true : Linear R).raw state).length
      = ((Linear.init nin ns wx (fun _ => 0) false : Linear R).raw x).length := by
    rw [Linear.init_raw_length, Linear.init_raw_length]
  simp only [DDLRnnCell.call, DDLRnnCell.init] at h1 h2 ⊢
  rw [h1, h2]
  simp only [Option.bind_eq_bind, Option.some_bind, vaddChk_pos _ _ hlen]
  rw [Linear.init_raw_true, Linear.init_raw_false]
  rfl

/-- C9: on an empty input sequence the whole-sequence call of the factorized
cell fails (the concatenation of an empty output list raises) instead of
returning the initial state. -/
theorem C9_factorized_empty_input_fails (c : FactorizedRnnCell R) (state : List R) :
    c.call state [] = none := rfl

/-- C5: a cell constructed with nin = 3 and nstate = 10, called with an
input of length 4 and a state of length nstate, fails with a shape error in
each of the three cell variants; it never silently broadcasts or truncates. -/
theorem C5_wrong_input_length_fails (w1 w2 : ℕ → ℕ → R) (b1 b2 : ℕ → R)
    (a : R → R) (x state : List R) (hx : x.length = 4) (hs : state.length = 10) :
    (MyRnnCell.init 3 10 w1 b1 w2 b2 a).call state x = none ∧
    (DDLRnnCell.init 3 10 w1 w2 b2 a).call state x = none ∧
    (∀ xs : List (List R), x ∈ xs →
      (FactorizedRnnCell.init 3 10 w1 w2 b2 a).call state xs = none) := by
  refine ⟨?_, ?_, ?_⟩
  · have hb : (x ++ state).length ≠ (3 + 10 : ℕ) := by
      simp [hx, hs]
    simp only [MyRnnCell.call, MyRnnCell.init]
    rw [Linear.apply_neg _ _ (by simpa [Linear.init_inDim] using hb)]
    rfl
  · have h1 : (DDLRnnCell.init 3 10 w1 w2 b2 a : DDLRnnCell R).whh.apply state
        = some ((Linear.init 10 10 w2 b2 true : Linear R).raw state) :=
      Linear.apply_pos _ _ (by simpa [DDLRnnCell.init] using hs)
    simp only [DDLRnnCell.call, DDLRnnCell.init] at h1 ⊢
    rw [h1]
    have h2 : (Linear.init 3 10 w1 (fun _ => 0) false : Linear R).apply x = none :=
      Linear.apply_neg _ _ (by simp [Linear.init_inDim, hx])
    simp [h2]
  · intro xs hmem
    have hbad : ¬ ∀ r ∈ xs, r.length
        = (FactorizedRnnCell.init 3 10 w1 w2 b2 a : FactorizedRnnCell R).win.inDim := by
      intro hall
      have := hall x hmem
      simp [FactorizedRnnCell.init, Linear.init_inDim, hx] at this
    simp only [FactorizedRnnCell.call, Linear.applyMat]
    rw [if_neg hbad]
    rfl

/-- C8: the simple cell shape-checks only the concatenation of input and
state: whenever the two lengths sum to nin + nstate the update succeeds and
returns a state of dimension nstate, even when neither argument has its
declared length individually. -/
theorem C8_simple_cell_checks_only_concat (nin ns : ℕ) (w1 w2 : ℕ → ℕ → R)
    (b1 b2 : ℕ → R) (a : R → R) (x state : List R)
    (h : x.length + state.length = nin + ns) :
    ∃ v, (MyRnnCell.init nin ns w1 b1 w2 b2 a).call state x = some v
      ∧ v.length = ns := by
  have h1 : (MyRnnCell.init nin ns w1 b1 w2 b2 a : MyRnnCell R).op1.apply (x ++ state)
      = some ((Linear.init (nin + ns) ns w1 b1 true : Linear R).raw (x ++ state)) :=
    Linear.apply_pos _ _ (by simpa [MyRnnCell.init, Linear.init_inDim] using h)
  have h2 : (MyRnnCell.init nin ns w1 b1 w2 b2 a : MyRnnCell R).op2.apply
      ((Linear.init (nin + ns) ns w1 b1 true : Linear R).raw (x ++ state))
      = some ((Linear.init ns ns w2 b2 true : Linear R).raw
          ((Linear.init (nin + ns) ns w1 b1 true : Linear R).raw (x ++ state))) :=
    Linear.apply_pos _ _ (by simp [MyRnnCell.init, Linear.init_inDim, Linear.init_raw_length])
  refine ⟨actVec a ((Linear.init ns ns w2 b2 true : Linear R).raw
    ((Linear.init (nin + ns) ns w1 b1 true : Linear R).raw (x ++ state))), ?_, ?_⟩
  · simp only [MyRnnCell.call, MyRnnCell.init] at h1 h2 ⊢
    rw [h1]
    simp only [Option.bind_eq_bind, Option.some_bind]
    rw [h2]
    rfl
  · rw [actVec_length, Linear.init_raw_length]

theorem call_factor_irrel (c : FactorizedRnnCell R) (f0 : List (List R))
    (state : List R) (x : List (List R)) :
    FactorizedRnnCell.call { c with factor := f0 } state x
      = FactorizedRnnCell.call c state x := by
  cases c
  rfl

theorem factorized_call_frame (c : FactorizedRnnCell R) (state : List R)
    (x : List (List R)) (out : List (List R)) (c1 : FactorizedRnnCell R)
    (h : c.call state x = some (out, c1)) :
    c1.win = c.win ∧ c1.wn = c.wn ∧ c1.act = c.act ∧ c1.nstate = c.nstate ∧
      c.win.applyMat x = some c1.factor ∧ c1 = { c with factor := c1.factor } := by
  simp only [FactorizedRnnCell.call, Option.bind_eq_bind, Option.bind_eq_some] at h
  obtain ⟨factor, hf, h⟩ := h
  obtain ⟨⟨fin, outs⟩, hl, h⟩ := h
  by_cases he : outs.isEmpty = true
  · simp [he] at h
  · by_cases hn : fin.length = c.nstate
    · rw [if_neg he, if_pos hn] at h
      have h2 := h
      rw [Option.some_inj, Prod.mk.injEq] at h2
      obtain ⟨hout, hc⟩ := h2
      subst hc
      exact ⟨rfl, rfl, rfl, rfl, hf, rfl⟩
    · rw [if_neg he, if_neg hn] at h
      exact absurd h (by simp)

theorem factorizedRNN_call_inv (c : FactorizedRnnCell R)
    (olM : List (List R) → Option (List (List R)))
    (x : List (List R)) (s : List R) (r : List (List R) × List R)
    (c1 : FactorizedRnnCell R)
    (h : FactorizedRNN.call c olM x s = some (r, c1)) :
    ∃ out, c.call s x = some (out, c1) ∧
      ∃ output, olM out = some output ∧
        ∃ last, out.getLast? = some last ∧ r = (output, last) := by
  simp only [FactorizedRNN.call, Option.bind_eq_bind, Option.bind_eq_some] at h
  obtain ⟨⟨out, cc⟩, hcall, h⟩ := h
  obtain ⟨output, ho, h⟩ := h
  cases hl : out.getLast? with
  | none => rw [hl] at h; exact absurd h (by simp)
  | some last =>
      rw [hl] at h
      have h2 := h
      simp only [pure, Option.some_inj, Prod.mk.injEq] at h2
      obtain ⟨hr, hc⟩ := h2
      subst hc
      exact ⟨out, hcall, output, ho, last, hl, hr.symm⟩

/-- C10: every forward call leaves all learned parameters unchanged; the only
instance attribute a forward call writes is the transient factor cache of the
factorized cell, overwritten from the input sequence on each invocation.  The
other two cells and the RNN and VectorizedRNN drivers are embedded as pure
functions of their parameters because their source bodies write no attribute;
the two implications below state the frame condition for the one component
that does write, both at the cell and at the driver level. -/
theorem C10_only_factor_cache_written (c : FactorizedRnnCell R)
    (olM : List (List R) → Option (List (List R)))
    (state : List R) (x : List (List R)) :
    (∀ out c1, c.call state x = some (out, c1) →
      c1.win = c.win ∧ c1.wn = c.wn ∧ c1.act = c.act ∧ c1.nstate = c.nstate ∧
        c.win.applyMat x = some c1.factor) ∧
    (∀ r c1, FactorizedRNN.call c olM x state = some (r, c1) →
      c1.win = c.win ∧ c1.wn = c.wn ∧ c1.act = c.act ∧ c1.nstate = c.nstate ∧
        c.win.applyMat x = some c1.factor) := by
  constructor
  · intro out c1 h
    obtain ⟨h1, h2, h3, h4, h5, -⟩ := factorized_call_frame c state x out c1 h
    exact ⟨h1, h2, h3, h4, h5⟩
  · intro r c1 h
    obtain ⟨out, hcall, -⟩ := factorizedRNN_call_inv c olM x state r c1 h
    obtain ⟨h1, h2, h3, h4, h5, -⟩ := factorized_call_frame c state x out c1 hcall
    exact ⟨h1, h2, h3, h4, h5⟩

/-- C7: with fixed weights and inputs the forward pass of every driver is
deterministic; no hidden randomness is consulted.  The RNN and VectorizedRNN
drivers are pure functions, so two runs coincide definitionally; for the
FactorizedRNN driver the module carries the mutable factor cache between
calls, and the theorem shows a second call from the post-call module state
returns the bit-identical result and module. -/
theorem C7_forward_pass_deterministic :
    (∀ (cellM : List (List R) → List (List R) → Option (List (List R)))
       (olM : List (List R) → Option (List (List R)))
       (x : List (List (List R))) (s : List (List R)),
      RNN.call cellM olM x s = RNN.call cellM olM x s) ∧
    (∀ (cell : List R → List R → Option (List R))
       (ol : List R → Option (List R)) (x : List (List R)) (s : List R),
      VectorizedRNN.call cell ol x s = VectorizedRNN.call cell ol x s) ∧
    (∀ (c : FactorizedRnnCell R) (olM : List (List R) → Option (List (List R)))
       (x : List (List R)) (s : List R) r c1,
      FactorizedRNN.call c olM x s = some (r, c1) →
      FactorizedRNN.call c1 olM x s = some (r, c1)) := by
  refine ⟨fun _ _ _ _ => rfl, fun _ _ _ _ => rfl, ?_⟩
  intro c olM x s r c1 h
  obtain ⟨out, hcall, output, ho, last, hlast, hr⟩ :=
    factorizedRNN_call_inv c olM x s r c1 h
  obtain ⟨-, -, -, -, -, hstruct⟩ := factorized_call_frame c s x out c1 hcall
  have hsame : c1.call s x = some (out, c1) := by
    have hirr := call_factor_irrel c c1.factor s x
    rw [← hstruct] at hirr
    rw [hirr, hcall]
  simp only [FactorizedRNN.call, Option.bind_eq_bind, hsame, Option.some_bind, ho,
    hlast, hr]
  rfl

/-- C1: for every initial state of dimension nstate and every non-empty
input sequence with rows of dimension nin, with identical weights in the two
cells (the same input-side Linear without bias, the same state-side Linear
with bias, the same activation), the whole-sequence call of the factorized
cell returns, up to reshape to (1, nstate), exactly the state obtained by
applying the canonical two-weight cell single-step update T times in order
from the same initial state. -/
theorem C1_factorized_cell_matches_iterated_canonical (nin ns : ℕ)
    (wi wh : ℕ → ℕ → R) (bh : ℕ → R) (a : R → R) (state : List R)
    (xs : List (List R)) (hne : xs ≠ []) (hs : state.length = ns)
    (hr : ∀ r ∈ xs, r.length = nin) :
    ∃ fin c1, iterCell (DDLRnnCell.init nin ns wi wh bh a) state xs = some fin ∧
      (FactorizedRnnCell.init nin ns wi wh bh a).call state xs
        = some ([fin], c1) := by
  obtain ⟨fin, hiter, -, hcall⟩ :=
    factorized_equiv_aux nin ns wi wh bh a state xs hne hs hr
  exact ⟨fin, _, hiter, hcall⟩

/-- Witness for C1 at a concrete one-dimensional pair of cells over the
integers and a sequence of length two. -/
theorem C1_witness :
    ((FactorizedRnnCell.init 1 1 (fun _ _ => (1 : ℤ)) (fun _ _ => 2) (fun _ => 1)
      id).call [1] [[1], [2]]).map Prod.fst = some [[11]] := by
  obtain ⟨fin, c1, hiter, hcall⟩ :=
    C1_factorized_cell_matches_iterated_canonical 1 1 (fun _ _ => (1 : ℤ))
      (fun _ _ => 2) (fun _ => 1) id [1] [[1], [2]] (by decide) (by decide)
      (by decide)
  have h2 : iterCell (DDLRnnCell.init 1 1 (fun _ _ => (1 : ℤ)) (fun _ _ => 2)
      (fun _ => 1) id) [1] [[1], [2]] = some [11] := by decide
  rw [hiter] at h2
  have hfin : fin = [11] := Option.some_inj.mp h2
  rw [hcall, hfin]
  rfl

/-- C4: the Factorized Driver returns a pair whose first component is the
Output Layer applied to the single final state produced by one
whole-sequence call of the cell — a single output, not a per-step output
sequence — and whose second component is that final state, equal to the
final state obtained by step-by-step application of the same recurrence. -/
theorem C4_factorized_driver_output (nin ns nout : ℕ) (wi wh : ℕ → ℕ → R)
    (bh : ℕ → R) (a : R → R) (ow : ℕ → ℕ → R) (ob : ℕ → R) (state : List R)
    (xs : List (List R)) (hne : xs ≠ []) (hs : state.length = ns)
    (hr : ∀ r ∈ xs, r.length = nin) :
    ∃ fin c1, iterCell (DDLRnnCell.init nin ns wi wh bh a) state xs = some fin ∧
      FactorizedRNN.call (FactorizedRnnCell.init nin ns wi wh bh a)
          ((Linear.init ns nout ow ob true : Linear R).applyMat) xs state
        = some (([(Linear.init ns nout ow ob true : Linear R).raw fin], fin), c1) := by
  obtain ⟨fin, hiter, hfin, hcall⟩ :=
    factorized_equiv_aux nin ns wi wh bh a state xs hne hs hr
  refine ⟨fin, { FactorizedRnnCell.init nin ns wi wh bh a with
    factor := xs.map (Linear.init nin ns wi (fun _ => 0) false : Linear R).raw },
    hiter, ?_⟩
  have hol : (Linear.init ns nout ow ob true : Linear R).applyMat [fin]
      = some [(Linear.init ns nout ow ob true : Linear R).raw fin] := by
    simp only [Linear.applyMat]
    rw [if_pos]
    · rfl
    · intro r hrr
      rw [List.mem_singleton] at hrr
      subst hrr
      simpa [Linear.init_inDim] using hfin
  simp only [FactorizedRNN.call, Option.bind_eq_bind]
  rw [hcall]
  simp only [Option.some_bind]
  rw [hol]
  rfl

/-- Witness for C4 at a concrete one-dimensional driver over the integers. -/
theorem C4_witness :
    (FactorizedRNN.call
      (FactorizedRnnCell.init 1 1 (fun _ _ => (1 : ℤ)) (fun _ _ => 2) (fun _ => 1) id)
      ((Linear.init 1 1 (fun _ _ => (3 : ℤ)) (fun _ => 1) true).applyMat)
      [[1], [2]] [1]).map Prod.fst = some ([[34]], [11]) := by
  obtain ⟨fin, c1, hiter, hcall⟩ :=
    C4_factorized_driver_output 1 1 1 (fun _ _ => (1 : ℤ)) (fun _ _ => 2)
      (fun _ => 1) id (fun _ _ => 3) (fun _ => 1) [1] [[1], [2]] (by decide)
      (by decide) (by decide)
  have h2 : iterCell (DDLRnnCell.init 1 1 (fun _ _ => (1 : ℤ)) (fun _ _ => 2)
      (fun _ => 1) id) [1] [[1], [2]] = some [11] := by decide
  rw [hiter] at h2
  have hfin : fin = [11] := Option.some_inj.mp h2
  subst hfin
  rw [hcall, Option.map_some']
  show some ([(Linear.init 1 1 (fun _ _ => (3 : ℤ)) (fun _ => 1) true).raw [11]], [11])
    = some ([[34]], [11])
  decide

/-- C2: running the Batched Driver — the vectorizing transform applied to
VectorizedRNN along batch axis (0, 0) — on a batch of sequences yields, for
every batch element, the same outputs and the same final state as running
the per-sequence driver on that sequence alone; the batch index b selects a
time-major slice of the batched output, which is how the time and batch axes
are aligned with the per-sequence result. -/
theorem C2_batched_matches_per_sequence
    (cell : List R → List R → Option (List R))
    (ol : List R → Option (List R)) (x : List (List (List R)))
    (s : List (List R)) (outs : List (List (List R))) (fins : List (List R))
    (b : ℕ) (hb : b < x.length)
    (h : vectorize2 (VectorizedRNN.call cell ol) x s = some (outs, fins)) :
    VectorizedRNN.call cell ol (x.getD b []) (s.getD b [])
      = some (outs.getD b [], fins.getD b []) := by
  by_cases hlen : x.length = s.length
  · simp only [vectorize2, if_pos hlen, Option.map_eq_some'] at h
    obtain ⟨res, hres, hpair⟩ := h
    have houts : outs = res.map Prod.fst := by
      have := congrArg Prod.fst hpair
      simpa using this.symm
    have hfins : fins = res.map Prod.snd := by
      have := congrArg Prod.snd hpair
      simpa using this.symm
    have hreslen : res.length = x.length := by
      rw [optList_some_length _ _ hres, List.length_zipWith, hlen, Nat.min_self]
    have hidx := optList_zip_index (VectorizedRNN.call cell ol) x s res b [] []
      ([], []) hlen hres hb
    rw [hidx, houts, hfins]
    rw [getD_map_lt Prod.fst res b [] ([], []) (by rw [hreslen]; exact hb),
      getD_map_lt Prod.snd res b [] ([], []) (by rw [hreslen]; exact hb)]
  · rw [vectorize2, if_neg hlen] at h
    exact absurd h (by simp)

/-- Witness for C2 at a concrete batch of two one-dimensional sequences of
length two over the integers, comparing batch element 1. -/
theorem C2_witness :
    VectorizedRNN.call
      (DDLRnnCell.init 1 1 (fun _ _ => (1 : ℤ)) (fun _ _ => 2) (fun _ => 1) id).call
      (Linear.init 1 1 (fun _ _ => (3 : ℤ)) (fun _ => 1) true).apply
      [[3], [4]] [0]
      = some ([[13], [40]], [13]) := by
  have h := C2_batched_matches_per_sequence
    (DDLRnnCell.init 1 1 (fun _ _ => (1 : ℤ)) (fun _ _ => 2) (fun _ => 1) id).call
    (Linear.init 1 1 (fun _ _ => (3 : ℤ)) (fun _ => 1) true).apply
    [[[1], [2]], [[3], [4]]] [[0], [0]]
    [[[7], [22]], [[13], [40]]] [[7], [13]] 1 (by decide) (by decide)
  exact h

/-- C6 counterexample: the claim says the input sequence of the Sequential
Driver is presented time-axis-first and that any batch-major layout is
reordered by the caller, not by the driver.  The RNN driver of the source,
however, takes batch-major input and transposes it itself: at a concrete
batch of two one-dimensional sequences of length two, the source driver
RNN.call differs from RNN.callSpec, the driver the claim describes, which
folds the given input directly without reordering. -/
theorem C6_counterexample :
    RNN.call
      (DDLRnnCell.init 1 1 (fun _ _ => (1 : ℤ)) (fun _ _ => 0) (fun _ => 0) id).callMat
      (Linear.init 1 1 (fun _ _ => 1) (fun _ => 0) true).applyMat
      [[[1], [2]], [[3], [4]]] [[0], [0]]
    ≠ RNN.callSpec
      (DDLRnnCell.init 1 1 (fun _ _ => (1 : ℤ)) (fun _ _ => 0) (fun _ => 0) id).callMat
      (Linear.init 1 1 (fun _ _ => 1) (fun _ => 0) true).applyMat
      [[[1], [2]], [[3], [4]]] [[0], [0]] := by
  decide

/-- C6 as amended: the per-sequence drivers VectorizedRNN and FactorizedRNN
take time-major input and VectorizedRNN produces time-major output, but the
RNN driver takes batch-major (B, T, nin) input and reorders it to time-major
itself — the reorder is done by the driver, not the caller — producing
time-major (T, B, nout) output.  Formally: on rectangular batch-major input,
the RNN driver of the source returns exactly the time/batch transpose of the
stacked per-sequence (time-major) outputs, with the same per-sequence final
states. -/
theorem C6_amended_layout (c : DDLRnnCell R) (ol : Linear R)
    (x : List (List (List R))) (s : List (List R))
    (outs : List (List (List R))) (fins : List (List R))
    (hrect : ∀ m ∈ x, m.length = (x.headD []).length)
    (h : vectorize2 (VectorizedRNN.call c.call ol.apply) x s = some (outs, fins)) :
    RNN.call c.callMat ol.applyMat x s
      = some (transposeBT (x.headD []).length outs, fins) := by
  by_cases hlen : x.length = s.length
  · simp only [vectorize2, if_pos hlen, Option.map_eq_some'] at h
    obtain ⟨res, hres, hpair⟩ := h
    have houts : outs = res.map Prod.fst := by
      have := congrArg Prod.fst hpair
      simpa using this.symm
    have hfins : fins = res.map Prod.snd := by
      have := congrArg Prod.snd hpair
      simpa using this.symm
    have hconv := vect_calls_to_scan c.call ol.apply x s res hres
    have hbatch := scan_batch c ol (x.headD []).length x s
      (res.map (fun p => (p.2, p.1))) hrect hlen.symm hconv
    have e1 : (res.map (fun p => (p.2, p.1))).map Prod.fst = res.map Prod.snd := by
      rw [List.map_map]
      rfl
    have e2 : (res.map (fun p => (p.2, p.1))).map Prod.snd = res.map Prod.fst := by
      rw [List.map_map]
      rfl
    rw [e1, e2] at hbatch
    simp only [RNN.call, Option.bind_eq_bind]
    rw [hbatch]
    simp only [Option.some_bind]
    rw [houts, hfins]
    rfl
  · rw [vectorize2, if_neg hlen] at h
    exact absurd h (by simp)

/-- Witness for the amended C6 at a concrete batch of two one-dimensional
sequences of length two over the integers. -/
theorem C6_witness :
    RNN.call
      (DDLRnnCell.init 1 1 (fun _ _ => (1 : ℤ)) (fun _ _ => 2) (fun _ => 1) id).callMat
      (Linear.init 1 1 (fun _ _ => (3 : ℤ)) (fun _ => 1) true).applyMat
      [[[1], [2]], [[3], [4]]] [[0], [0]]
      = some ([[[7], [13]], [[22], [40]]], [[7], [13]]) := by
  have h := C6_amended_layout
    (DDLRnnCell.init 1 1 (fun _ _ => (1 : ℤ)) (fun _ _ => 2) (fun _ => 1) id)
    (Linear.init 1 1 (fun _ _ => (3 : ℤ)) (fun _ => 1) true)
    [[[1], [2]], [[3], [4]]] [[0], [0]]
    [[[7], [22]], [[13], [40]]] [[7], [13]] (by decide) (by decide)
  exact h.trans (by decide)

/-- Witness for C3 at a concrete one-dimensional cell over the integers. -/
theorem C3_witness :
    (DDLRnnCell.init 1 1 (fun _ _ => (1 : ℤ)) (fun _ _ => 2) (fun _ => 3) id).call
      [4] [5] = some [16] :=
  (C3_canonical_cell_update 1 1 (fun _ _ => 1) (fun _ _ => 2) (fun _ => 3) id
    [4] [5] (by decide) (by decide)).trans (by decide)

/-- Witness for C5 at concrete cells with nin 3 and nstate 10 over the
integers, called on an input of length 4 and a state of length 10. -/
theorem C5_witness :
    (MyRnnCell.init 3 10 (fun _ _ => (0 : ℤ)) (fun _ => 0) (fun _ _ => 0)
      (fun _ => 0) id).call (List.replicate 10 0) [1, 2, 3, 4] = none ∧
    (DDLRnnCell.init 3 10 (fun _ _ => (0 : ℤ)) (fun _ _ => 0) (fun _ => 0)
      id).call (List.replicate 10 0) [1, 2, 3, 4] = none ∧
    (FactorizedRnnCell.init 3 10 (fun _ _ => (0 : ℤ)) (fun _ _ => 0) (fun _ => 0)
      id).call (List.replicate 10 0) [[1, 2, 3, 4]] = none := by
  have h := C5_wrong_input_length_fails (fun _ _ => (0 : ℤ)) (fun _ _ => 0)
    (fun _ => 0) (fun _ => 0) id [1, 2, 3, 4] (List.replicate 10 0)
    (by decide) (by decide)
  exact ⟨h.1, h.2.1, h.2.2 [[1, 2, 3, 4]] (by simp)⟩

/-- Witness for C8 at a concrete simple cell over the integers, with an
input of length 4 and a state of length 9 whose lengths sum to 3 + 10. -/
theorem C8_witness :
    (4 + 9 : ℕ) = 3 + 10 ∧
    ((MyRnnCell.init 3 10 (fun _ _ => (0 : ℤ)) (fun _ => 0) (fun _ _ => 0)
      (fun _ => 0) id).call (List.replicate 9 0) [1, 2, 3, 4]).isSome = true := by
  refine ⟨by decide, ?_⟩
  obtain ⟨v, hv, -⟩ := C8_simple_cell_checks_only_concat 3 10 (fun _ _ => (0 : ℤ))
    (fun _ _ => 0) (fun _ => 0) (fun _ => 0) id [1, 2, 3, 4]
    (List.replicate 9 0) (by decide)
  rw [hv]
  rfl

/-- Witness for C10 at a concrete factorized cell and input over the
integers, picking out the factor cache conjunct of the frame condition. -/
theorem C10_witness :
    (FactorizedRnnCell.init 1 1 (fun _ _ => (1 : ℤ)) (fun _ _ => 0) (fun _ => 0)
        id).win.applyMat [[7]]
      = some ({ FactorizedRnnCell.init 1 1 (fun _ _ => (1 : ℤ)) (fun _ _ => 0)
          (fun _ => 0) id with factor := [[7]] } :
            FactorizedRnnCell ℤ).factor :=
  ((C10_only_factor_cache_written
    (FactorizedRnnCell.init 1 1 (fun _ _ => (1 : ℤ)) (fun _ _ => 0) (fun _ => 0) id)
    ((Linear.init 1 1 (fun _ _ => 1) (fun _ => 0) true).applyMat) [0]
    [[7]]).1 [[7]]
    ({ FactorizedRnnCell.init 1 1 (fun _ _ => (1 : ℤ)) (fun _ _ => 0) (fun _ => 0)
        id with factor := [[7]] })
    (by rfl)).2.2.2.2

/-- Witness for C7 at a concrete factorized driver call over the integers:
the second call from the post-call module returns the identical result. -/
theorem C7_witness :
    FactorizedRNN.call
      ({ FactorizedRnnCell.init 1 1 (fun _ _ => (1 : ℤ)) (fun _ _ => 0)
          (fun _ => 0) id with factor := [[7]] })
      ((Linear.init 1 1 (fun _ _ => 1) (fun _ => 0) true).applyMat) [[7]] [0]
      = some (([[7]], [7]),
          { FactorizedRnnCell.init 1 1 (fun _ _ => (1 : ℤ)) (fun _ _ => 0)
              (fun _ => 0) id with factor := [[7]] }) :=
  C7_forward_pass_deterministic.2.2
    (FactorizedRnnCell.init 1 1 (fun _ _ => (1 : ℤ)) (fun _ _ => 0) (fun _ => 0) id)
    ((Linear.init 1 1 (fun _ _ => 1) (fun _ => 0) true).applyMat) [[7]] [0]
    ([[7]], [7])
    ({ FactorizedRnnCell.init 1 1 (fun _ _ => (1 : ℤ)) (fun _ _ => 0) (fun _ => 0)
        id with factor := [[7]] })
    (by rfl)

end Objax
